import Mathlib

/-!
Verification of the myia abstract-inference engine (`myia/abstract/infer.py`)
against its specification.

The development shallowly embeds the data model and the operations of the
inference engine.  Pure dispatch logic is translated directly from the
source; the asynchronous scheduler is collapsed into explicit
`Except`-valued resolution functions passed as parameters (the engine's
`ref(...).get()` calls).  Components of the repository that the engine
imports but whose files are not part of the studied sources
(`abstract/utils.py`: `amerge`, `broaden`, `concretize_abstract`;
`abstract/loop.py`: `Pending`; `abstract/ref.py`: `Context`) are modelled
from the specification and are marked as such in their doc comments.
-/

namespace Myia

/-- Myia scalar types (`dtype.Int[b]`, `dtype.UInt[b]`, `dtype.Float[b]`,
`dtype.Bool`, the type of `None`, `dtype.SymbolicKeyType`). -/
inductive MyiaType where
  | int (bits : Nat)
  | uint (bits : Nat)
  | float (bits : Nat)
  | bool
  | nil
  | symbolicKey
deriving DecidableEq

/-- Whether a type is a float type (`issubclass(typ, dtype.Float)`). -/
def MyiaType.isFloat : MyiaType → Bool
  | .float _ => true
  | _ => false

/-- The fixed ordered candidate list `_number_types` from the source:
Int8..Int64, UInt8..UInt64, Float16..Float64. -/
def number_types : List MyiaType :=
  [.int 8, .int 16, .int 32, .int 64,
   .uint 8, .uint 16, .uint 32, .uint 64,
   .float 16, .float 32, .float 64]

/-- Primitive operations referred to by the engine (`P.partial` is written
`Partial` here because of Lean keywords; `P.make_record`;
`operations.getattr`; all other primitives are opaque). -/
inductive Prim where
  | Partial
  | MakeRecord
  | GetAttr
  | Other (n : Nat)
deriving DecidableEq

/-- Concrete Python values carried by constant nodes, restricted to the
kinds of host values the studied claims exercise (literals, primitives,
type objects, strings).  The remaining `to_abstract` overloads act on host
object kinds (graphs, dataclasses, arrays, ...) that none of the claims
inspect. -/
inductive PyV where
  | pybool (b : Bool)
  | pynone
  | pyint (n : Int)
  | pyfloat (fid : Nat)
  | pyprim (p : Prim)
  | pytype (t : MyiaType)
  | pystr (s : String)
deriving DecidableEq

/-- The entry on a track: the absorbing top `ANYTHING` or a concrete
entry.  Modelled from the spec: "ANYTHING is an absorbing top value for
merge on a given track". -/
inductive Tr (α : Type) where
  | any
  | val (a : α)
deriving DecidableEq

/-- Contents of the TYPE track of a scalar: either a concrete Myia type or
a `Pending` created from a finite candidate list (candidates, default,
priority), as built by `loop.create_pending_from_list` in the source. -/
inductive TypeEntry where
  | concrete (t : MyiaType)
  | pending (cands : List MyiaType) (dflt : MyiaType) (prio : Nat)
deriving DecidableEq

/-- Function variants (`data.py` names kept): each payload that the
engine code under study never inspects is left opaque (a numeric id). -/
inductive FunctionVariant where
  | PrimitiveFunction (p : Prim)
  | GraphFunction (g : Nat)
  | MetaGraphFunction (mg : Nat)
  | PartialApplication (id : Nat)
  | JTransformedFunction (id : Nat)
  | MacroFunction (m : Nat)
  | VirtualFunction (id : Nat)
  | DummyFunction
deriving DecidableEq

/-- Abstract values.  `scalar` carries its VALUE and TYPE tracks;
`function` carries the tuple of possibilities of an `AbstractFunction`;
`atype` is `AbstractType`; `aerror` is `AbstractError`; `aclass` is
`AbstractClassBase`; `jtagged` is `AbstractJTagged`; `keyword` is
`AbstractKeywordArgument`; `externalV` is `AbstractExternal`.  Compound
variants (`AbstractTuple`, `AbstractArray`, ...) are not inspected by any
studied claim and are not represented. -/
inductive AV where
  | scalar (value : Tr PyV) (type_ : Tr TypeEntry)
  | function (poss : List FunctionVariant)
  | atype (t : MyiaType)
  | aerror (reason : Nat)
  | aclass (tag : Nat)
  | jtagged (elem : AV)
  | keyword (name : String) (value : AV)
  | externalV (v : PyV)
deriving DecidableEq

-- Graph nodes: constants (with an optional pre-attached abstract
-- annotation and a carried concrete value), applications, and parameters.
-- `NodeList` is an inlined list so that decidable equality is derivable.
mutual
inductive Node where
  | constant (ab : Option AV) (v : PyV)
  | apply (inputs : NodeList)
  | param (id : Nat)
deriving DecidableEq
inductive NodeList where
  | nil
  | cons (n : Node) (ns : NodeList)
deriving DecidableEq
end

/-- Append two node lists (used for `fn.inputs[2:] + args`). -/
def NodeList.append : NodeList → NodeList → NodeList
  | .nil, ys => ys
  | .cons x xs, ys => .cons x (xs.append ys)

/-- Errors raised by the engine.  The source raises `MyiaTypeError` with
distinct messages; distinct constructors record which message. -/
inductive Err where
  | typeMismatch
  | wrongNumberOfArguments
  | callingInvalidType
  | notCallable
  | keywordNotAllowed
  | assertionFailure
  | dummyCall
deriving DecidableEq

/-- Merge of one track.  Modelled from the spec: "tracks merge
independently, ANYTHING absorbs any concrete value, two different concrete
values on the same track without ANYTHING fails" (the function `amerge` of
`abstract/utils.py` is imported by the engine but its file is not among
the studied sources). -/
def mergeTr {α : Type} [DecidableEq α] : Tr α → Tr α → Except Err (Tr α)
  | .any, _ => .ok .any
  | _, .any => .ok .any
  | .val a, .val b => if a = b then .ok (.val a) else .error .typeMismatch

/-- Structural merge of abstract values.  Modelled from the spec:
scalars merge track by track; for Function "the result is the union of
the two operands' FunctionVariant sets"; tagged values merge their
element; any other pair must be structurally equal or the merge fails
with a type error. -/
def amerge : AV → AV → Except Err AV
  | .scalar v1 t1, .scalar v2 t2 => do
      let v ← mergeTr v1 v2
      let t ← mergeTr t1 t2
      .ok (.scalar v t)
  | .function ps, .function qs => .ok (.function (ps.union qs))
  | .jtagged e1, .jtagged e2 => do
      let e ← amerge e1 e2
      .ok (.jtagged e)
  | .keyword n1 v1, .keyword n2 v2 =>
      if n1 = n2 then do
        let v ← amerge v1 v2
        .ok (.keyword n1 v)
      else .error .typeMismatch
  | a, b => if a = b then .ok a else .error .typeMismatch

/-- The engine's `abstract_merge`: `reduce(amerge, values)` (source
`InferenceEngine.abstract_merge`).  `reduce` on an empty sequence raises,
modelled as an assertion failure; the engine never calls it that way. -/
def abstract_merge : List AV → Except Err AV
  | [] => .error .assertionFailure
  | v :: vs => vs.foldlM amerge v

/-- Translation of the `to_abstract` overload for int/float literals:
the scalar gets its concrete Myia type, except that when an inference
loop is supplied the TYPE track becomes a Pending over the fixed
candidate list `_number_types`, with the concrete type as default and
priority 1 for floats, 0 otherwise. -/
def to_abstract_number (loop : Bool) (v : PyV) (typ : MyiaType) : AV :=
  let te : TypeEntry :=
    if loop then
      .pending number_types typ (if typ.isFloat then 1 else 0)
    else
      .concrete typ
  .scalar (.val v) (.val te)

/-- Translation of the `to_abstract` open multiple-dispatch function,
restricted to the host-value kinds represented by `PyV`.  Each branch
mirrors the source overload registered for that Python type; note that
`bool` and `None` have their own overload and never receive a Pending
type, even though Python `bool` is a subclass of `int`. -/
def to_abstract (loop : Bool) : PyV → AV
  | .pybool b => .scalar (.val (.pybool b)) (.val (.concrete .bool))
  | .pynone => .scalar (.val .pynone) (.val (.concrete .nil))
  | .pyint n => to_abstract_number loop (.pyint n) (.int 64)
  | .pyfloat f => to_abstract_number loop (.pyfloat f) (.float 64)
  | .pyprim p => .function [.PrimitiveFunction p]
  | .pytype t => .atype t
  | .pystr s => .externalV (.pystr s)

/-- Forcing of a TYPE-track entry.  Modelled from the spec: a Pending
built from a finite candidate list resolves, absent any accumulated
constraint, to its default candidate (`abstract/loop.py` is not among the
studied sources). -/
def force_type_entry : TypeEntry → MyiaType
  | .concrete t => t
  | .pending _ dflt _ => dflt

/-- Concretization of an abstract value.  Modelled from the spec:
"recursively force every Pending reachable inside an AbstractValue to its
resolved concrete form" (`concretize_abstract` lives in
`abstract/utils.py`, not among the studied sources). -/
def concretize : AV → AV
  | .scalar v (.val te) => .scalar v (.val (.concrete (force_type_entry te)))
  | .scalar v .any => .scalar v .any
  | .jtagged e => .jtagged (concretize e)
  | .keyword n v => .keyword n (concretize v)
  | x => x

/-- Whether an abstract value is an `AbstractFunction`. -/
def AV.isFunctionAV : AV → Bool
  | .function _ => true
  | _ => false

/-- Translation of `InferenceEngine.infer_constant`: the constant's
carried value is first interned through the pipeline's `convert` hook and
then translated by `to_abstract` (the engine always passes its loop). -/
def infer_constant (convert : PyV → PyV) (loop : Bool) (v : PyV) : AV :=
  to_abstract loop (convert v)

/-- Translation of `InferenceEngine.compute_ref`: a constant with an
already-known non-function abstract annotation is returned directly, any
other constant goes through `infer_constant`, an application goes through
`infer_apply` (passed as a parameter because it recursively re-enters the
engine), and any other node kind is an assertion failure. -/
def compute_ref (convert : PyV → PyV) (loop : Bool)
    (inferApply : NodeList → Except Err AV) : Node → Except Err AV
  | .constant ab v =>
      match ab with
      | some inferred =>
          if inferred.isFunctionAV then .ok (infer_constant convert loop v)
          else .ok inferred
      | none => .ok (infer_constant convert loop v)
  | .apply inputs => inferApply inputs
  | .param _ => .error .assertionFailure

/-- Translation of `InferenceEngine.infer_apply`, with the engine's
asynchronous reference resolutions passed as parameters: `resolveNode`
models `engine.ref(n, ctx).get()`, `rerouteTo` models
`engine.reroute(ref, newref)` (which returns the inference result of the
replacement reference), and `execInfs` models the scheduled
`execute_inferrers` call on the resolved inferrers.  The dispatch on the
callee's abstract value is translated branch by branch from the source:
a Type is rewritten to `partial(make_record, T)(args)`, an Error fails
immediately, a class-like value is rewritten to
`getattr(fn, "__call__")(args)`, any non-Function value fails as not
callable, and a Function value runs its inferrers. -/
def infer_apply (resolveNode : Node → Except Err AV)
    (rerouteTo : Node → Except Err AV)
    (execInfs : List FunctionVariant → NodeList → Except Err AV)
    (inputs : NodeList) : Except Err AV :=
  match inputs with
  | .nil => .error .assertionFailure
  | .cons n_fn n_args => do
      let fn ← resolveNode n_fn
      match fn with
      | .atype t =>
          let newfn : Node :=
            .apply (.cons (.constant none (.pyprim .Partial))
              (.cons (.constant none (.pyprim .MakeRecord))
                (.cons (.constant none (.pytype t)) .nil)))
          rerouteTo (.apply (.cons newfn n_args))
      | .aerror _ => .error .callingInvalidType
      | .aclass _ =>
          let newfn : Node :=
            .apply (.cons (.constant none (.pyprim .GetAttr))
              (.cons n_fn
                (.cons (.constant none (.pystr "__call__")) .nil)))
          rerouteTo (.apply (.cons newfn n_args))
      | .function poss => execInfs poss n_args
      | _ => .error .notCallable

/-- Decidable equality for `Except` outcomes. -/
instance exceptDecEq {ε α : Type} [DecidableEq ε] [DecidableEq α] :
    DecidableEq (Except ε α)
  | .ok a, .ok b =>
      if h : a = b then .isTrue (congrArg Except.ok h)
      else .isFalse (fun hc => h (Except.ok.inj hc))
  | .ok _, .error _ => .isFalse (fun hc => Except.noConfusion hc)
  | .error _, .ok _ => .isFalse (fun hc => Except.noConfusion hc)
  | .error e, .error f =>
      if h : e = f then .isTrue (congrArg Except.error h)
      else .isFalse (fun hc => h (Except.error.inj hc))

/-- Observable behavior of one inferrer at one call site: the value its
`reroute` coroutine returns (`none` is the default "no reroute"), and the
outcome of its `run` coroutine.  `execute_inferrers` consults exactly
these two for each inferrer. -/
structure InferrerM where
  rerouteRes : Option Node
  runRes : Except Err AV
deriving DecidableEq

/-- Translation of `execute_inferrers`: collect the set of reroute
results of all inferrers; more than one distinct element is an assertion
failure ("Only one macro may be used at a call point"); a singleton set
holding a reference propagates that reference's result (through
`engine.reroute`, modelled by `resolveNew`); otherwise a single inferrer
runs directly, and several inferrers each run into a pending later bound
into the structural merge of all branch results.  The unpacking of an
empty set (no inferrers at all) raises in Python and is modelled as an
assertion failure too. -/
def execute_inferrers (resolveNew : Node → Except Err AV)
    (infs : List InferrerM) : Except Err AV :=
  let reroutes := (infs.map (fun i => i.rerouteRes)).dedup
  if 1 < reroutes.length then .error .assertionFailure
  else
    match reroutes with
    | [some newref] => resolveNew newref
    | [none] =>
        match infs with
        | [inf] => inf.runRes
        | _ => do
            let rs ← infs.mapM (fun i => i.runRes)
            abstract_merge rs
    | _ => .error .assertionFailure

/-- The test performed on the head operand of a candidate inner call by
`PartialInferrer.reroute`: its abstract value must be an
`AbstractFunction` with exactly one possibility, a `PrimitiveFunction`
whose primitive is `partial`. -/
def is_single_Partial (resolve : Node → AV) (h : Node) : Bool :=
  match resolve h with
  | .function poss =>
      match poss with
      | [.PrimitiveFunction .Partial] => true
      | _ => false
  | _ => false

/-- The `while True` loop of `PartialInferrer.reroute`, with explicit
fuel (the source loop has no bound; `none` means the fuel ran out or the
inner partial application was malformed).  Each iteration first follows
the engine's reroute chain (`getActual` models
`engine.get_actual_ref(engine.ref(fn, ctx)).node`), then, if the node is
an application whose head operand resolves to the single `partial`
primitive, prepends its bound arguments (`fn.inputs[2:]`) to the
accumulated arguments and descends into the wrapped callee
(`fn.inputs[1]`), recording that a collapse occurred; otherwise it stops
and returns the current callee, arguments and collapse flag. -/
def Partial_walk (getActual : Node → Node) (resolve : Node → AV) :
    Nat → Node → NodeList → Bool → Option (Node × NodeList × Bool)
  | 0, _, _, _ => none
  | fuel+1, fn0, args, collapse =>
      let fn := getActual fn0
      match fn with
      | .apply (.cons fnfn rest) =>
          if is_single_Partial resolve fnfn then
            match rest with
            | .cons inner bound =>
                Partial_walk getActual resolve fuel inner
                  (bound.append args) true
            | .nil => none
          else some (fn, args, collapse)
      | _ => some (fn, args, collapse)

/-- Translation of `PartialInferrer.reroute`: run the collapsing walk on
the call's function operand and live arguments; if at least one collapse
occurred, produce the flattened call node `fn(args...)` (whose Reference
the engine then reroutes to), else produce no reroute.  The outer
`Option` distinguishes a completed walk from one that ran out of fuel. -/
def PartialInferrer_reroute (getActual : Node → Node) (resolve : Node → AV)
    (fuel : Nat) (callNode : Node) : Option (Option Node) :=
  match callNode with
  | .apply (.cons fn args) =>
      match Partial_walk getActual resolve fuel fn args false with
      | some (fn', args', true) => some (some (.apply (.cons fn' args')))
      | some (_, _, false) => some none
      | none => none
  | _ => none

/-- Whether the collapsing walk stops at this node: it is not an
application, or its head operand does not resolve to the single `partial`
primitive. -/
def walk_stops (resolve : Node → AV) : Node → Bool
  | .apply (.cons h _) => ! is_single_Partial resolve h
  | _ => true

/-- Translation of `VirtualInferrer.infer`: a wrong number of arguments
raises, every supplied argument is merged against its declared expected
abstract value (a failing merge raises), and the fixed declared output is
returned unchanged. -/
def VirtualInferrer_infer (self_args : List AV) (output : AV)
    (args : List AV) : Except Err AV :=
  if args.length ≠ self_args.length then .error .wrongNumberOfArguments
  else do
    let _ ← (args.zip self_args).mapM (fun p => amerge p.1 p.2)
    .ok output

/-- A specialized graph as the engine sees it: an identity, its formal
parameters and its return node. -/
structure GraphT where
  gid : Nat
  params : List Nat
  ret : Node
deriving DecidableEq

/-- Inference contexts.  Modelled from the spec: an immutable chain of
(graph, argument-key) pairs, extended by `add` (`abstract/ref.py` is not
among the studied sources). -/
structure Ctx where
  chain : List (Nat × List AV)
deriving DecidableEq

/-- The empty context. -/
def Ctx.empty : Ctx := ⟨[]⟩

/-- Extend a context with a (graph, argument-key) pair. -/
def Ctx.add (c : Ctx) (g : GraphT) (argkey : List AV) : Ctx :=
  ⟨(g.gid, argkey) :: c.chain⟩

/-- Translation of `GraphInferrer.infer`: generate (or look up) the
specialization of the target graph for the arguments (`gen` models
`get_graph`, which caches by signature), raise an arity error when the
argument count differs from the generated graph's parameter count, then
build the new context and return the inference of the graph's return
node in it (`getInferred` models the engine computation; the force-binding
of each parameter Reference in the cache is a cache side effect inside
it). -/
def GraphInferrer_infer (ctxSelf : Ctx) (gen : List AV → GraphT)
    (getInferred : Node → Ctx → Except Err AV)
    (args : List AV) : Except Err AV :=
  let g := gen args
  if args.length ≠ g.params.length then .error .wrongNumberOfArguments
  else getInferred g.ret (ctxSelf.add g args)

/-- Translation of `InferenceEngine.run`: build the root context by
extending the empty context with (graph, argspec), resolve the Reference
of the graph's return node in it (`resolve` stands for scheduling the
root computation to a fixpoint; a raised inference error surfaces as the
`Except` error), optionally merge the concretized output against the
expected output and fail if that merge fails, and return the concretized
output together with the root context. -/
def InferenceEngine_run (resolve : Node → Ctx → Except Err AV)
    (g : GraphT) (argspec : List AV) (outspec : Option AV) :
    Except Err (AV × Ctx) := do
  let root := Ctx.empty.add g argspec
  let out ← resolve g.ret root
  match outspec with
  | some o => do
      let _ ← amerge (concretize out) o
      .ok (concretize out, root)
  | none => .ok (concretize out, root)

/-- Lookup in the engine's `reference_map` (references identified by
numeric ids; a Python dict key test plus indexing). -/
def lookupRef (m : List (Nat × Nat)) (r : Nat) : Option Nat :=
  (m.find? (fun p => p.1 == r)).map (fun p => p.2)

/-- The `while` loop of `get_actual_ref` with explicit fuel: follow the
replacement chain until the current reference is no longer a key. -/
def gar_fuel (m : List (Nat × Nat)) : Nat → Nat → Nat
  | 0, r => r
  | fuel+1, r =>
      match lookupRef m r with
      | none => r
      | some r2 => gar_fuel m fuel r2

/-- Translation of `InferenceEngine.get_actual_ref`: follow the reroute
chain to the final replacement.  The fuel `m.length` is provably enough
when the chains are acyclic (see the theorem for claim C9). -/
def get_actual_ref (m : List (Nat × Nat)) (r : Nat) : Nat :=
  gar_fuel m m.length r

/-- Iterate the reroute map `n` times from `r` (`none` when the chain
leaves the key set before `n` steps). -/
def stepN (m : List (Nat × Nat)) : Nat → Nat → Option Nat
  | 0, r => some r
  | n+1, r => (lookupRef m r).bind (stepN m n)

/-- Acyclicity of the reroute chains: no reference reaches itself again
in one or more steps. -/
def Acyclic (m : List (Nat × Nat)) : Prop :=
  ∀ r n, stepN m (n+1) r ≠ some r

/-- Whether an abstract value carries a Pending TYPE track. -/
def AV.hasPendingType : AV → Bool
  | .scalar _ (.val (.pending _ _ _)) => true
  | _ => false

/-- Whether an abstract value falls into none of the special callee
kinds of `infer_apply` (Type, Error, class-like, Function): such a callee
is rejected as not callable. -/
def notCallableKind : AV → Bool
  | .atype _ => false
  | .aerror _ => false
  | .aclass _ => false
  | .function _ => false
  | _ => true

/-- The constant node carrying the `partial` primitive. -/
def partialConst : Node := .constant none (.pyprim .Partial)

/-- The call node `partial(partial(f, a), b)(c)`. -/
def nestedPartialCall (f a b c : Node) : Node :=
  .apply (.cons
    (.apply (.cons partialConst (.cons
      (.apply (.cons partialConst (.cons f (.cons a .nil))))
      (.cons b .nil))))
    (.cons c .nil))

/-- The flattened call node `f(a, b, c)`. -/
def flatCall (f a b c : Node) : Node :=
  .apply (.cons f (.cons a (.cons b (.cons c .nil))))

/-- Every failure of one-track merging is the type-mismatch error. -/
theorem mergeTr_error_eq {α : Type} [inst : DecidableEq α] :
    ∀ (x y : Tr α) (e : Err), mergeTr x y = .error e → e = .typeMismatch := by
  intro x y e h
  cases x with
  | any => simp [mergeTr] at h
  | val a =>
    cases y with
    | any => simp [mergeTr] at h
    | val b =>
      simp only [mergeTr] at h
      split at h
      · cases h
      · exact Except.error.inj h.symm

/-- Every failure of `amerge` is the type-mismatch error. -/
theorem amerge_error_eq :
    ∀ (a b : AV) (e : Err), amerge a b = .error e → e = .typeMismatch := by
  intro a
  induction a with
  | scalar v1 t1 =>
      intro b e h
      cases b <;> simp only [amerge] at h
      case scalar v2 t2 =>
        cases hv : mergeTr v1 v2 with
        | error ev =>
            rw [hv] at h
            simp only [bind, Except.bind] at h
            exact (Except.error.inj h.symm).symm ▸ mergeTr_error_eq v1 v2 ev hv
        | ok v =>
            rw [hv] at h
            simp only [bind, Except.bind] at h
            cases ht : mergeTr t1 t2 with
            | error et =>
                rw [ht] at h
                simp only [bind, Except.bind] at h
                exact (Except.error.inj h.symm).symm ▸ mergeTr_error_eq t1 t2 et ht
            | ok t =>
                rw [ht] at h
                simp only [bind, Except.bind] at h
                cases h
      all_goals (split at h <;> first | exact Except.error.inj h.symm | cases h)
  | function ps =>
      intro b e h
      cases b <;> simp only [amerge] at h
      case function qs => cases h
      all_goals (split at h <;> first | exact Except.error.inj h.symm | cases h)
  | jtagged e1 ih =>
      intro b e h
      cases b <;> simp only [amerge] at h
      case jtagged e2 =>
        cases he : amerge e1 e2 with
        | error ee =>
            rw [he] at h
            simp only [bind, Except.bind] at h
            exact (Except.error.inj h.symm).symm ▸ ih e2 ee he
        | ok v =>
            rw [he] at h
            simp only [bind, Except.bind] at h
            cases h
      all_goals (split at h <;> first | exact Except.error.inj h.symm | cases h)
  | keyword n1 v1 ih =>
      intro b e h
      cases b <;> simp only [amerge] at h
      case keyword n2 v2 =>
        split at h
        · cases hk : amerge v1 v2 with
          | error ek =>
              rw [hk] at h
              simp only [bind, Except.bind] at h
              exact (Except.error.inj h.symm).symm ▸ ih v2 ek hk
          | ok v =>
              rw [hk] at h
              simp only [bind, Except.bind] at h
              cases h
        · exact Except.error.inj h.symm
      all_goals (split at h <;> first | exact Except.error.inj h.symm | cases h)
  | atype t =>
      intro b e h
      cases b <;> simp only [amerge] at h <;>
        (split at h <;> first | exact Except.error.inj h.symm | cases h)
  | aerror r =>
      intro b e h
      cases b <;> simp only [amerge] at h <;>
        (split at h <;> first | exact Except.error.inj h.symm | cases h)
  | aclass c =>
      intro b e h
      cases b <;> simp only [amerge] at h <;>
        (split at h <;> first | exact Except.error.inj h.symm | cases h)
  | externalV v =>
      intro b e h
      cases b <;> simp only [amerge] at h <;>
        (split at h <;> first | exact Except.error.inj h.symm | cases h)

/-- Mapping `amerge` over a list of pairs fails with the type-mismatch
error as soon as one pair fails to merge. -/
theorem mapM_amerge_error :
    ∀ (l : List (AV × AV)),
      (∃ p ∈ l, ∃ e, amerge p.1 p.2 = .error e) →
      l.mapM (fun p => amerge p.1 p.2) = .error .typeMismatch := by
  intro l
  induction l with
  | nil => rintro ⟨p, hp, _⟩; cases hp
  | cons q qs ih =>
      rintro ⟨p, hp, e, he⟩
      rw [List.mapM_cons]
      cases hq : amerge q.1 q.2 with
      | error eq' =>
          have : eq' = Err.typeMismatch := amerge_error_eq q.1 q.2 eq' hq
          subst this
          simp [bind, Except.bind]
      | ok v =>
          simp only [bind, Except.bind]
          rcases List.mem_cons.mp hp with rfl | hmem
          · rw [hq] at he; cases he
          · rw [ih ⟨p, hmem, e, he⟩]

/-- A non-empty list all of whose elements equal `c` dedups to `[c]`. -/
theorem dedup_all_eq {β : Type} [DecidableEq β] :
    ∀ (l : List β) (c : β), l ≠ [] → (∀ x ∈ l, x = c) → l.dedup = [c] := by
  intro l
  induction l with
  | nil => intro c h _; cases h rfl
  | cons x xs ih =>
      intro c _ hall
      have hx : x = c := hall x (List.mem_cons_self x xs)
      subst hx
      cases xs with
      | nil => simp
      | cons y ys =>
          have hy : y = x := hall y (List.mem_cons_of_mem x (List.mem_cons_self y ys))
          have hrec : (y :: ys).dedup = [x] := by
            refine ih x (by simp) ?_
            intro z hz
            exact hall z (List.mem_cons_of_mem x hz)
          have hmem : x ∈ y :: ys := by
            rw [hy]; exact List.mem_cons_self x ys
          rw [List.dedup_cons_of_mem hmem, hrec]

/-- A list containing two distinct elements has length at least two. -/
theorem two_mem_length {β : Type} :
    ∀ (l : List β) (a b : β), a ∈ l → b ∈ l → a ≠ b → 1 < l.length := by
  intro l a b ha hb hne
  cases l with
  | nil => cases ha
  | cons x xs =>
      cases xs with
      | nil =>
          rcases List.mem_singleton.mp ha with rfl
          rcases List.mem_singleton.mp hb with rfl
          cases hne rfl
      | cons y ys => simp only [List.length_cons]; omega

/-- C10: `to_abstract` maps a bool or `None` to an `AbstractScalar`
carrying the concrete value on the VALUE track and the concrete Myia type
(Bool resp. the None type) on the TYPE track, never a Pending, whether or
not a loop is supplied; and the only literals that ever receive a Pending
TYPE track are int and float literals. -/
theorem C10_bool_none_concrete :
    (∀ (b : Bool) (loop : Bool),
      to_abstract loop (.pybool b)
        = .scalar (.val (.pybool b)) (.val (.concrete .bool)))
  ∧ (∀ loop : Bool,
      to_abstract loop .pynone
        = .scalar (.val .pynone) (.val (.concrete .nil)))
  ∧ (∀ (loop : Bool) (v : PyV),
      (to_abstract loop v).hasPendingType = true →
        (∃ n, v = .pyint n) ∨ (∃ fid, v = .pyfloat fid)) := by
  refine ⟨fun b loop => rfl, fun loop => rfl, fun loop v h => ?_⟩
  cases v with
  | pyint n => exact Or.inl ⟨n, rfl⟩
  | pyfloat fid => exact Or.inr ⟨fid, rfl⟩
  | pybool b => simp [to_abstract, AV.hasPendingType] at h
  | pynone => simp [to_abstract, AV.hasPendingType] at h
  | pyprim p => simp [to_abstract, AV.hasPendingType] at h
  | pytype t => simp [to_abstract, AV.hasPendingType] at h
  | pystr s => simp [to_abstract, AV.hasPendingType] at h

/-- Witness for C10: a bool with a loop supplied stays concrete, and the
Pending-type implication is applied at the int literal 5. -/
theorem C10_witness :
    (∃ n, PyV.pyint 5 = PyV.pyint n) ∨ (∃ fid, PyV.pyint 5 = PyV.pyfloat fid) :=
  C10_bool_none_concrete.2.2 true (.pyint 5) (by decide)

/-- C6: an int or float literal converted without a loop becomes an
`AbstractScalar` with the literal on the VALUE track and its concrete
Myia type (Int64 resp. Float64) on the TYPE track; with a loop the TYPE
track becomes a Pending over the fixed ordered candidate list
`_number_types` (Int8..Int64, UInt8..UInt64, Float16..Float64) whose
default is the literal's concrete type, with priority 1 for float
literals and 0 for int literals; and an unconstrained int literal
concretizes to Int64. -/
theorem C6_numeric_literal_conversion :
    (∀ n : Int, to_abstract false (.pyint n)
        = .scalar (.val (.pyint n)) (.val (.concrete (.int 64))))
  ∧ (∀ fid : Nat, to_abstract false (.pyfloat fid)
        = .scalar (.val (.pyfloat fid)) (.val (.concrete (.float 64))))
  ∧ (∀ n : Int, to_abstract true (.pyint n)
        = .scalar (.val (.pyint n))
            (.val (.pending number_types (.int 64) 0)))
  ∧ (∀ fid : Nat, to_abstract true (.pyfloat fid)
        = .scalar (.val (.pyfloat fid))
            (.val (.pending number_types (.float 64) 1)))
  ∧ number_types
      = [.int 8, .int 16, .int 32, .int 64,
         .uint 8, .uint 16, .uint 32, .uint 64,
         .float 16, .float 32, .float 64]
  ∧ (∀ n : Int, concretize (to_abstract true (.pyint n))
        = .scalar (.val (.pyint n)) (.val (.concrete (.int 64)))) := by
  refine ⟨fun n => rfl, fun fid => rfl, fun n => rfl, fun fid => rfl, rfl,
    fun n => rfl⟩

/-- C2: `compute_ref` dispatches on the node kind: a constant with an
already-known non-function abstract annotation returns that annotation
directly; a constant with a function annotation or no annotation goes
through `infer_constant`, i.e. its carried concrete value interned by the
pipeline's convert hook and translated by `to_abstract`; an application
delegates to `infer_apply`; any other node kind (a parameter with no
forced value) is a fatal consistency failure. -/
theorem C2_compute_ref_dispatch :
    ∀ (convert : PyV → PyV) (loop : Bool)
      (inferApply : NodeList → Except Err AV),
      (∀ (a : AV) (v : PyV), a.isFunctionAV = false →
          compute_ref convert loop inferApply (.constant (some a) v) = .ok a)
    ∧ (∀ (a : AV) (v : PyV), a.isFunctionAV = true →
          compute_ref convert loop inferApply (.constant (some a) v)
            = .ok (to_abstract loop (convert v)))
    ∧ (∀ v : PyV,
          compute_ref convert loop inferApply (.constant none v)
            = .ok (to_abstract loop (convert v)))
    ∧ (∀ inputs : NodeList,
          compute_ref convert loop inferApply (.apply inputs)
            = inferApply inputs)
    ∧ (∀ i : Nat,
          compute_ref convert loop inferApply (.param i)
            = .error .assertionFailure) := by
  intro convert loop inferApply
  refine ⟨fun a v h => ?_, fun a v h => ?_, fun v => rfl, fun inputs => rfl,
    fun i => rfl⟩
  · simp [compute_ref, h]
  · simp [compute_ref, h, infer_constant]

/-- Witness for C2: a constant annotated with a non-function abstract
value returns the annotation, and one annotated with a function abstract
value goes through conversion. -/
theorem C2_witness :
    compute_ref id false (fun _ => .error .notCallable)
        (.constant (some (.atype .bool)) .pynone) = .ok (.atype .bool)
  ∧ compute_ref id false (fun _ => .error .notCallable)
        (.constant (some (.function [])) .pynone)
      = .ok (to_abstract false (id .pynone)) :=
  ⟨(C2_compute_ref_dispatch id false (fun _ => .error .notCallable)).1
      (.atype .bool) .pynone (by decide),
   (C2_compute_ref_dispatch id false (fun _ => .error .notCallable)).2.1
      (.function []) .pynone (by decide)⟩

/-- C8: when the resolved callee of an application is an `AbstractError`,
`infer_apply` fails immediately with the type error for calling an
invalid type; and when the resolved callee is neither a Type, an Error, a
class-like value nor a Function (for example the scalar 5, as in `5()`),
`infer_apply` fails with the not-callable type error no matter what the
inferrer-execution continuation would do. -/
theorem C8_infer_apply_bad_callee :
    ∀ (resolveNode rerouteTo : Node → Except Err AV)
      (execInfs : List FunctionVariant → NodeList → Except Err AV)
      (n_fn : Node) (n_args : NodeList),
      (∀ r : Nat, resolveNode n_fn = .ok (.aerror r) →
          infer_apply resolveNode rerouteTo execInfs (.cons n_fn n_args)
            = .error .callingInvalidType)
    ∧ (∀ fnv : AV, resolveNode n_fn = .ok fnv → notCallableKind fnv = true →
          infer_apply resolveNode rerouteTo execInfs (.cons n_fn n_args)
            = .error .notCallable)
    ∧ (∀ rerouteTo2 : Node → Except Err AV,
        ∀ execInfs2 : List FunctionVariant → NodeList → Except Err AV,
          infer_apply (fun _ => .ok (to_abstract false (.pyint 5)))
              rerouteTo2 execInfs2 (.cons n_fn n_args)
            = .error .notCallable) := by
  intro resolveNode rerouteTo execInfs n_fn n_args
  refine ⟨fun r h => ?_, fun fnv h hk => ?_, fun rerouteTo2 execInfs2 => rfl⟩
  · simp [infer_apply, h, bind, Except.bind]
  · simp [infer_apply, h, bind, Except.bind]
    cases fnv <;> simp_all [notCallableKind]

/-- Witness for C8: calling a value of Error type fails with the
invalid-type error, and calling the scalar 5 fails as not callable. -/
theorem C8_witness :
    infer_apply (fun _ => .ok (.aerror 7)) (fun _ => .ok (.atype .bool))
        (fun _ _ => .ok (.atype .bool)) (.cons (.param 0) .nil)
      = .error .callingInvalidType
  ∧ infer_apply (fun _ => .ok (to_abstract false (.pyint 5)))
        (fun _ => .ok (.atype .bool)) (fun _ _ => .ok (.atype .bool))
        (.cons (.param 0) .nil)
      = .error .notCallable :=
  ⟨(C8_infer_apply_bad_callee (fun _ => .ok (.aerror 7))
      (fun _ => .ok (.atype .bool)) (fun _ _ => .ok (.atype .bool))
      (.param 0) .nil).1 7 rfl,
   (C8_infer_apply_bad_callee (fun _ => .ok (.aerror 7))
      (fun _ => .ok (.atype .bool)) (fun _ _ => .ok (.atype .bool))
      (.param 0) .nil).2.2 (fun _ => .ok (.atype .bool))
      (fun _ _ => .ok (.atype .bool))⟩

/-- C5: the merge used by the engine (`abstract_merge`, reducing with
`amerge`) satisfies, on each track of a scalar: merging a concrete entry
with ANYTHING is commutative and yields the track broadened to ANYTHING;
merging equal entries is the identity; merging two distinct concrete
entries on the same track fails with a type error.  The same facts hold
at the level of whole abstract scalars, and `abstract_merge` of two
values is exactly `amerge`. -/
theorem C5_merge_track_algebra :
    (∀ (α : Type) (inst : DecidableEq α) (x : Tr α),
        @mergeTr α inst x .any = .ok .any
      ∧ @mergeTr α inst .any x = .ok .any
      ∧ @mergeTr α inst x x = .ok x)
  ∧ (∀ (α : Type) (inst : DecidableEq α) (a b : α), a ≠ b →
        @mergeTr α inst (.val a) (.val b) = .error .typeMismatch)
  ∧ (∀ (v : Tr PyV) (t : Tr TypeEntry),
        amerge (.scalar v t) (.scalar .any .any) = .ok (.scalar .any .any)
      ∧ amerge (.scalar .any .any) (.scalar v t) = .ok (.scalar .any .any)
      ∧ amerge (.scalar v t) (.scalar v t) = .ok (.scalar v t))
  ∧ (∀ (a b : PyV), a ≠ b → ∀ t : Tr TypeEntry,
        amerge (.scalar (.val a) t) (.scalar (.val b) t)
          = .error .typeMismatch)
  ∧ (∀ x y : AV, abstract_merge [x, y] = amerge x y) := by
  refine ⟨?_, ?_, ?_, ?_, ?_⟩
  · intro α inst x
    refine ⟨?_, ?_, ?_⟩ <;> cases x <;> simp [mergeTr]
  · intro α inst a b h
    simp [mergeTr, h]
  · intro v t
    refine ⟨?_, ?_, ?_⟩ <;> cases v <;> cases t <;>
      simp [amerge, mergeTr, bind, Except.bind]
  · intro a b h t
    cases t <;> simp [amerge, mergeTr, h, bind, Except.bind]
  · intro x y
    show List.foldlM amerge x [y] = amerge x y
    simp only [List.foldlM]
    cases amerge x y <;> rfl

/-- Witness for C5: merging the distinct concrete int literals 1 and 2
on the VALUE track fails with the type-mismatch error. -/
theorem C5_witness :
    amerge (.scalar (.val (.pyint 1)) (.val (.concrete (.int 64))))
        (.scalar (.val (.pyint 2)) (.val (.concrete (.int 64))))
      = .error .typeMismatch :=
  C5_merge_track_algebra.2.2.2.1 (.pyint 1) (.pyint 2) (by decide)
    (.val (.concrete (.int 64)))

/-- C7: `VirtualInferrer.infer` raises the arity error whenever the
number of supplied arguments differs from the length of its declared
argument list, raises a type error when some supplied argument fails to
merge with its declared expected abstract value, and otherwise returns
its fixed declared output unchanged; and `GraphInferrer.infer` raises the
arity error whenever the argument count differs from the number of
parameters of the generated specialized graph. -/
theorem C7_virtual_and_graph_arity :
    (∀ (self_args : List AV) (output : AV) (args : List AV),
        args.length ≠ self_args.length →
        VirtualInferrer_infer self_args output args
          = .error .wrongNumberOfArguments)
  ∧ (∀ (self_args : List AV) (output : AV) (args : List AV),
        args.length = self_args.length →
        (∃ p ∈ args.zip self_args, ∃ e, amerge p.1 p.2 = .error e) →
        VirtualInferrer_infer self_args output args = .error .typeMismatch)
  ∧ (∀ (self_args : List AV) (output : AV) (args : List AV)
        (rs : List AV),
        args.length = self_args.length →
        (args.zip self_args).mapM (fun p => amerge p.1 p.2) = .ok rs →
        VirtualInferrer_infer self_args output args = .ok output)
  ∧ (∀ (ctxSelf : Ctx) (gen : List AV → GraphT)
        (getInferred : Node → Ctx → Except Err AV) (args : List AV),
        args.length ≠ (gen args).params.length →
        GraphInferrer_infer ctxSelf gen getInferred args
          = .error .wrongNumberOfArguments) := by
  refine ⟨?_, ?_, ?_, ?_⟩
  · intro self_args output args h
    simp [VirtualInferrer_infer, h]
  · intro self_args output args hlen hfail
    have hm := mapM_amerge_error (args.zip self_args) hfail
    simp only [List.mapM] at hm
    simp [VirtualInferrer_infer, hlen, hm, bind, Except.bind]
  · intro self_args output args rs hlen hm
    simp only [List.mapM] at hm
    simp [VirtualInferrer_infer, hlen, hm, bind, Except.bind]
  · intro ctxSelf gen getInferred args h
    simp [GraphInferrer_infer, h]

/-- Witness for C7: a virtual inferrer declared for one argument rejects
two arguments with the arity error, accepts a matching argument and
returns its declared output, and rejects a mismatching argument with the
type error; a graph inferrer whose generated graph has one parameter
rejects an empty argument list. -/
theorem C7_witness :
    VirtualInferrer_infer [.atype .bool] (.aerror 0)
        [.atype .bool, .atype .bool] = .error .wrongNumberOfArguments
  ∧ VirtualInferrer_infer [.atype .bool] (.aerror 0) [.atype .bool]
      = .ok (.aerror 0)
  ∧ VirtualInferrer_infer [.atype .bool] (.aerror 0) [.atype .nil]
      = .error .typeMismatch
  ∧ GraphInferrer_infer Ctx.empty (fun _ => ⟨0, [5], .param 5⟩)
      (fun _ _ => .ok (.atype .bool)) [] = .error .wrongNumberOfArguments :=
  ⟨C7_virtual_and_graph_arity.1 [.atype .bool] (.aerror 0)
      [.atype .bool, .atype .bool] (by decide),
   C7_virtual_and_graph_arity.2.2.1 [.atype .bool] (.aerror 0)
      [.atype .bool] [.atype .bool] (by decide) (by decide),
   C7_virtual_and_graph_arity.2.1 [.atype .bool] (.aerror 0) [.atype .nil]
      (by decide) ⟨(.atype .nil, .atype .bool), by decide,
        .typeMismatch, by decide⟩,
   C7_virtual_and_graph_arity.2.2.2 Ctx.empty (fun _ => ⟨0, [5], .param 5⟩)
      (fun _ _ => .ok (.atype .bool)) [] (by decide)⟩

/-- C3: `engine.run(graph, argspec, outspec)` returns the concretized
abstract value of the graph's return node paired with the root context
obtained by extending the empty context with (graph, argspec); when an
outspec is given, the concretized output is additionally merged against
it and the run fails exactly when that merge fails. -/
theorem C3_engine_run :
    ∀ (resolve : Node → Ctx → Except Err AV) (g : GraphT)
      (argspec : List AV) (a : AV),
      resolve g.ret (Ctx.empty.add g argspec) = .ok a →
      (InferenceEngine_run resolve g argspec none
          = .ok (concretize a, Ctx.empty.add g argspec))
    ∧ (∀ o m, amerge (concretize a) o = .ok m →
          InferenceEngine_run resolve g argspec (some o)
            = .ok (concretize a, Ctx.empty.add g argspec))
    ∧ (∀ o e, amerge (concretize a) o = .error e →
          InferenceEngine_run resolve g argspec (some o) = .error e) := by
  intro resolve g argspec a h
  refine ⟨?_, ?_, ?_⟩
  · simp [InferenceEngine_run, h, bind, Except.bind]
  · intro o m hm
    simp [InferenceEngine_run, h, hm, bind, Except.bind]
  · intro o e he
    simp [InferenceEngine_run, h, he, bind, Except.bind]

/-- Witness for C3: running a one-node graph whose return node resolves
to an int-literal scalar returns the concretized scalar and the root
context (empty extended with the graph and argspec); with a mismatching
outspec the run fails with the merge's type error. -/
theorem C3_witness :
    InferenceEngine_run
        (fun _ _ => .ok (.scalar (.val (.pyint 3))
          (.val (.pending number_types (.int 64) 0))))
        ⟨0, [], .param 0⟩ [] none
      = .ok (.scalar (.val (.pyint 3)) (.val (.concrete (.int 64))),
          Ctx.empty.add ⟨0, [], .param 0⟩ [])
  ∧ InferenceEngine_run
        (fun _ _ => .ok (.scalar (.val (.pyint 3))
          (.val (.pending number_types (.int 64) 0))))
        ⟨0, [], .param 0⟩ [] (some (.atype .bool))
      = .error .typeMismatch :=
  ⟨(C3_engine_run
      (fun _ _ => .ok (.scalar (.val (.pyint 3))
        (.val (.pending number_types (.int 64) 0))))
      ⟨0, [], .param 0⟩ []
      (.scalar (.val (.pyint 3)) (.val (.pending number_types (.int 64) 0)))
      rfl).1,
   (C3_engine_run
      (fun _ _ => .ok (.scalar (.val (.pyint 3))
        (.val (.pending number_types (.int 64) 0))))
      ⟨0, [], .param 0⟩ []
      (.scalar (.val (.pyint 3)) (.val (.pending number_types (.int 64) 0)))
      rfl).2.2 (.atype .bool) .typeMismatch (by decide)⟩

/-- C1 (amended): `execute_inferrers` propagates a reroute target's
inferred result exactly when every inferrer proposes that same target;
whenever two inferrers produce two distinct reroute outcomes — two
distinct targets, or a target alongside a no-reroute answer — it fails
with the internal-consistency assertion. -/
theorem C1_execute_inferrers_reroute :
    ∀ (resolveNew : Node → Except Err AV) (infs : List InferrerM)
      (r : Node),
      (infs ≠ [] → (∀ i ∈ infs, i.rerouteRes = some r) →
          execute_inferrers resolveNew infs = resolveNew r)
    ∧ (∀ i ∈ infs, ∀ j ∈ infs, i.rerouteRes ≠ j.rerouteRes →
          execute_inferrers resolveNew infs
            = .error .assertionFailure) := by
  intro resolveNew infs r
  constructor
  · intro hne hall
    have hmapne : infs.map (fun i => i.rerouteRes) ≠ [] := by
      simpa using hne
    have hd : (infs.map (fun i => i.rerouteRes)).dedup = [some r] := by
      refine dedup_all_eq _ (some r) hmapne ?_
      intro x hx
      rcases List.mem_map.mp hx with ⟨i, hi, rfl⟩
      exact hall i hi
    simp [execute_inferrers, hd]
  · intro i hi j hj hne
    have hid : i.rerouteRes ∈ (infs.map (fun k => k.rerouteRes)).dedup :=
      List.mem_dedup.mpr (List.mem_map.mpr ⟨i, hi, rfl⟩)
    have hjd : j.rerouteRes ∈ (infs.map (fun k => k.rerouteRes)).dedup :=
      List.mem_dedup.mpr (List.mem_map.mpr ⟨j, hj, rfl⟩)
    have hlen := two_mem_length _ _ _ hid hjd hne
    simp [execute_inferrers, hlen]

/-- Witness for C1: two inferrers agreeing on the same reroute target
propagate that target's inferred result. -/
theorem C1_witness :
    execute_inferrers (fun _ => .ok (.atype .bool))
        [⟨some (.param 3), .ok (.aerror 0)⟩,
         ⟨some (.param 3), .error .dummyCall⟩]
      = .ok (.atype .bool) :=
  (C1_execute_inferrers_reroute (fun _ => .ok (.atype .bool))
      [⟨some (.param 3), .ok (.aerror 0)⟩,
       ⟨some (.param 3), .error .dummyCall⟩] (.param 3)).1
    (by decide) (by decide)

/-- One unfolding step of `stepN`. -/
theorem stepN_succ (m : List (Nat × Nat)) (n r : Nat) :
    stepN m (n+1) r = (lookupRef m r).bind (stepN m n) := rfl

/-- The iterated reroute map splits over addition of step counts. -/
theorem stepN_add (m : List (Nat × Nat)) :
    ∀ (a b r : Nat), stepN m (a + b) r = (stepN m a r).bind (stepN m b) := by
  intro a
  induction a with
  | zero =>
      intro b r
      simp [stepN]
  | succ a ih =>
      intro b r
      rw [Nat.add_right_comm, stepN_succ, stepN_succ]
      cases hl : lookupRef m r with
      | none => simp
      | some r2 => simp [ih]

/-- If an `n`-step walk exists, every shorter walk exists too. -/
theorem stepN_prefix (m : List (Nat × Nat)) (n r x : Nat)
    (h : stepN m n r = some x) :
    ∀ i, i ≤ n → ∃ y, stepN m i r = some y := by
  intro i hi
  have hsplit := stepN_add m i (n - i) r
  rw [Nat.add_sub_cancel' hi] at hsplit
  rw [hsplit] at h
  cases hs : stepN m i r with
  | none => rw [hs] at h; simp at h
  | some y => exact ⟨y, rfl⟩

/-- A reference with a successor in the reroute map is one of its keys. -/
theorem lookupRef_mem_keys (m : List (Nat × Nat)) (x y : Nat)
    (h : lookupRef m x = some y) : x ∈ m.map Prod.fst := by
  unfold lookupRef at h
  cases hf : m.find? (fun p => p.1 == x) with
  | none => rw [hf] at h; cases h
  | some p =>
      have hp : p ∈ m := List.mem_of_find?_eq_some hf
      have hpx := List.find?_some hf
      have hpx' : p.1 = x := by simpa using hpx
      exact hpx' ▸ List.mem_map_of_mem Prod.fst hp

/-- One unfolding step of the fuelled reroute-chain walk. -/
theorem gar_fuel_succ (m : List (Nat × Nat)) (fuel r : Nat) :
    gar_fuel m (fuel+1) r =
      match lookupRef m r with
      | none => r
      | some r2 => gar_fuel m fuel r2 := rfl

/-- A reference that is not a key is a fixed point of the walk for any
fuel. -/
theorem gar_fuel_of_lookup_none (m : List (Nat × Nat)) (r : Nat)
    (h : lookupRef m r = none) : ∀ fuel, gar_fuel m fuel r = r := by
  intro fuel
  cases fuel with
  | zero => rfl
  | succ k => rw [gar_fuel_succ, h]

/-- The fuelled walk follows the chain: its result is reached by some
number of steps bounded by the fuel, and if fewer steps than the fuel
were used, the result is no longer a key. -/
theorem gar_spec (m : List (Nat × Nat)) :
    ∀ (fuel r : Nat), ∃ k, k ≤ fuel
      ∧ stepN m k r = some (gar_fuel m fuel r)
      ∧ (k < fuel → lookupRef m (gar_fuel m fuel r) = none) := by
  intro fuel
  induction fuel with
  | zero =>
      intro r
      exact ⟨0, Nat.le_refl 0, rfl, fun h => absurd h (Nat.lt_irrefl 0)⟩
  | succ fuel ih =>
      intro r
      cases hl : lookupRef m r with
      | none =>
          refine ⟨0, Nat.zero_le _, ?_, fun _ => ?_⟩
          · rw [gar_fuel_succ, hl]
            rfl
          · rw [gar_fuel_succ, hl]
            exact hl
      | some r2 =>
          obtain ⟨k, hk, hs, hn⟩ := ih r2
          refine ⟨k+1, Nat.succ_le_succ hk, ?_, fun hlt => ?_⟩
          · rw [gar_fuel_succ, hl, stepN_succ, hl]
            exact hs
          · rw [gar_fuel_succ, hl]
            exact hn (Nat.lt_of_succ_lt_succ hlt)

/-- Once the walk has reached a non-key, extra fuel changes nothing. -/
theorem gar_fuel_extra (m : List (Nat × Nat)) :
    ∀ (fuel r : Nat), lookupRef m (gar_fuel m fuel r) = none →
      ∀ e, gar_fuel m (fuel + e) r = gar_fuel m fuel r := by
  intro fuel
  induction fuel with
  | zero =>
      intro r h e
      rw [Nat.zero_add]
      exact gar_fuel_of_lookup_none m r h e
  | succ fuel ih =>
      intro r h e
      cases hl : lookupRef m r with
      | none =>
          exact (gar_fuel_of_lookup_none m r hl _).trans
            (gar_fuel_of_lookup_none m r hl _).symm
      | some r2 =>
          have h2 : lookupRef m (gar_fuel m fuel r2) = none := by
            rw [gar_fuel_succ, hl] at h
            exact h
          rw [Nat.add_right_comm]
          rw [gar_fuel_succ, gar_fuel_succ, hl]
          exact ih r2 h2 e

/-- Under acyclicity, the chain walk with fuel `m.length` reaches a
reference that is no longer a key of the map (pigeonhole: an unfinished
walk would have visited `m.length + 1` distinct keys). -/
theorem gar_result_not_key (m : List (Nat × Nat)) (r : Nat)
    (hac : Acyclic m) : lookupRef m (get_actual_ref m r) = none := by
  obtain ⟨k, hk, hs, hn⟩ := gar_spec m m.length r
  by_cases hklt : k < m.length
  · exact hn hklt
  · have hk_eq : k = m.length := Nat.le_antisymm hk (Nat.le_of_not_lt hklt)
    subst hk_eq
    by_contra hres
    have hex : ∀ i, i ≤ m.length → ∃ y, stepN m i r = some y :=
      stepN_prefix m m.length r _ hs
    set F : Fin (m.length+1) → Nat := fun i => (stepN m i.val r).getD 0
      with hFdef
    have hF : ∀ i : Fin (m.length+1), stepN m i.val r = some (F i) := by
      intro i
      obtain ⟨y, hy⟩ := hex i.val (Nat.lt_succ_iff.mp i.isLt)
      rw [hFdef]
      simp only [hy, Option.getD_some]
    have hlt : ∀ i j : Fin (m.length+1), i.val < j.val → F i ≠ F j := by
      intro i j hij heq
      have hsplit := stepN_add m i.val (j.val - i.val) r
      rw [Nat.add_sub_cancel' (Nat.le_of_lt hij)] at hsplit
      rw [hF i] at hsplit
      have hj := hF j
      rw [hsplit] at hj
      rw [← heq] at hj
      obtain ⟨d, hd⟩ : ∃ d, j.val - i.val = d + 1 :=
        ⟨j.val - i.val - 1, by omega⟩
      rw [hd] at hj
      exact hac (F i) d hj
    have hkey : ∀ i : Fin (m.length+1), F i ∈ m.map Prod.fst := by
      intro i
      by_cases hi : i.val < m.length
      · obtain ⟨z, hz⟩ := hex (i.val + 1) (Nat.succ_le_of_lt hi)
        have hsplit := stepN_add m i.val 1 r
        rw [hF i] at hsplit
        rw [hsplit] at hz
        cases hlk : lookupRef m (F i) with
        | none =>
            exfalso
            have hnone : Option.bind (some (F i)) (stepN m 1) = none := by
              simp [stepN, hlk]
            rw [hnone] at hz
            cases hz
        | some y => exact lookupRef_mem_keys m (F i) y hlk
      · have hiL : i.val = m.length := by
          have := i.isLt
          omega
        have h1 := hF i
        rw [hiL] at h1
        have h2 : some (F i) = some (get_actual_ref m r) := h1.symm.trans hs
        have hFi : F i = get_actual_ref m r := Option.some.inj h2
        cases hlk : lookupRef m (F i) with
        | none =>
            exfalso
            rw [hFi] at hlk
            exact hres hlk
        | some y => exact lookupRef_mem_keys m (F i) y hlk
    have hinj : Set.InjOn F (Finset.univ : Finset (Fin (m.length+1))) := by
      intro i _ j _ heq
      rcases Nat.lt_trichotomy i.val j.val with h | h | h
      · exact absurd heq (hlt i j h)
      · exact Fin.ext h
      · exact absurd heq.symm (hlt j i h)
    have hmaps : ∀ i ∈ (Finset.univ : Finset (Fin (m.length+1))),
        F i ∈ (m.map Prod.fst).toFinset :=
      fun i _ => List.mem_toFinset.mpr (hkey i)
    have hcard := Finset.card_le_card_of_injOn F hmaps hinj
    have hcard1 :
        (Finset.univ : Finset (Fin (m.length+1))).card = m.length + 1 := by
      simp
    have hcard2 : (m.map Prod.fst).toFinset.card ≤ (m.map Prod.fst).length :=
      List.toFinset_card_le _
    have hcard3 : (m.map Prod.fst).length = m.length := List.length_map _ _
    omega

/-- C9: under acyclicity of the reroute chains, `get_actual_ref`
terminates within `m.length` steps (extra fuel changes nothing), its
result is not itself a key of the reference map, it is idempotent, and a
never-rerouted reference is returned unchanged. -/
theorem C9_get_actual_ref_props :
    ∀ (m : List (Nat × Nat)) (r : Nat), Acyclic m →
      lookupRef m (get_actual_ref m r) = none
    ∧ get_actual_ref m (get_actual_ref m r) = get_actual_ref m r
    ∧ (lookupRef m r = none → get_actual_ref m r = r)
    ∧ (∀ extra, gar_fuel m (m.length + extra) r = get_actual_ref m r) := by
  intro m r hac
  have h1 := gar_result_not_key m r hac
  refine ⟨h1, ?_, ?_, ?_⟩
  · exact gar_fuel_of_lookup_none m _ h1 m.length
  · intro h
    exact gar_fuel_of_lookup_none m r h m.length
  · intro extra
    exact gar_fuel_extra m m.length r h1 extra

/-- Witness for C9: on the two-link chain 1 → 2 → 3 the final
replacement of reference 1 is not itself rerouted. -/
theorem C9_witness :
    lookupRef [(1,2),(2,3)] (get_actual_ref [(1,2),(2,3)] 1) = none := by
  have hlook : ∀ r : Nat, r ≠ 1 → r ≠ 2 →
      lookupRef [(1,2),(2,3)] r = none := by
    intro r h1 h2
    have b1 : ((1:Nat) == r) = false := beq_eq_false_iff_ne.mpr (Ne.symm h1)
    have b2 : ((2:Nat) == r) = false := beq_eq_false_iff_ne.mpr (Ne.symm h2)
    simp [lookupRef, List.find?, b1, b2]
  have hac : Acyclic [(1,2),(2,3)] := by
    intro r n hc
    by_cases hr1 : r = 1
    · subst hr1
      have h1 : stepN [(1,2),(2,3)] (n+1) 1 = stepN [(1,2),(2,3)] n 2 := rfl
      rw [h1] at hc
      cases n with
      | zero => exact absurd hc (by decide)
      | succ k =>
          have h2 : stepN [(1,2),(2,3)] (k+1) 2
              = stepN [(1,2),(2,3)] k 3 := rfl
          rw [h2] at hc
          cases k with
          | zero => exact absurd hc (by decide)
          | succ k2 =>
              have h3 : stepN [(1,2),(2,3)] (k2+1) 3 = none := rfl
              rw [h3] at hc
              cases hc
    · by_cases hr2 : r = 2
      · subst hr2
        have h2 : stepN [(1,2),(2,3)] (n+1) 2 = stepN [(1,2),(2,3)] n 3 := rfl
        rw [h2] at hc
        cases n with
        | zero => exact absurd hc (by decide)
        | succ k =>
            have h3 : stepN [(1,2),(2,3)] (k+1) 3 = none := rfl
            rw [h3] at hc
            cases hc
      · have h := hlook r hr1 hr2
        have hnone : stepN [(1,2),(2,3)] (n+1) r = none := by
          rw [stepN_succ, h]
          rfl
        rw [hnone] at hc
        cases hc
  exact (C9_get_actual_ref_props [(1,2),(2,3)] 1 hac).1

/-- Unfolding equation for one iteration of the collapsing walk. -/
theorem Partial_walk_succ (ga : Node → Node) (res : Node → AV)
    (fuel : Nat) (fn0 : Node) (args : NodeList) (col : Bool) :
    Partial_walk ga res (fuel+1) fn0 args col =
      match ga fn0 with
      | .apply (.cons fnfn rest) =>
          if is_single_Partial res fnfn then
            match rest with
            | .cons inner bound =>
                Partial_walk ga res fuel inner (bound.append args) true
            | .nil => none
          else some (ga fn0, args, col)
      | _ => some (ga fn0, args, col) := rfl

/-- C4: when the engine's reroute chains are inactive and the head
constant resolves to the single `partial` primitive,
`PartialInferrer.reroute` collapses `partial(partial(f, a), b)(c)` into
the flattened call `f(a, b, c)` and produces its Reference; it produces
no reroute for a call whose function operand does not collapse; and the
engine then infers for the nested call exactly the inferred result of the
flattened call `f(a, b, c)`. -/
theorem C4_partial_collapse :
    ∀ (ga : Node → Node) (res : Node → AV) (f a b c : Node),
      (∀ n, ga n = n) →
      res partialConst = .function [.PrimitiveFunction .Partial] →
      walk_stops res f = true →
      (PartialInferrer_reroute ga res 3 (nestedPartialCall f a b c)
          = some (some (flatCall f a b c)))
    ∧ (∀ args : NodeList,
        PartialInferrer_reroute ga res 1 (.apply (.cons f args))
          = some none)
    ∧ (∀ (resolveNew : Node → Except Err AV) (runR : Except Err AV)
          (rr : Node),
        PartialInferrer_reroute ga res 3 (nestedPartialCall f a b c)
            = some (some rr) →
        execute_inferrers resolveNew [⟨some rr, runR⟩] = resolveNew rr
        ∧ rr = flatCall f a b c) := by
  intro ga res f a b c hga hpart hstop
  have hsp : is_single_Partial res partialConst = true := by
    simp [is_single_Partial, hpart]
  have hstep : ∀ (fuel : Nat) (args : NodeList) (col : Bool),
      Partial_walk ga res (fuel+1) f args col = some (f, args, col) := by
    intro fuel args col
    rw [Partial_walk_succ]
    cases hf : f with
    | apply inputs =>
        cases inputs with
        | nil => simp [hga]
        | cons hd rest =>
            have hns : is_single_Partial res hd = false := by
              rw [hf] at hstop
              simpa [walk_stops] using hstop
            simp [hga, hns]
    | constant ab v => simp [hga]
    | param i => simp [hga]
  have hw : Partial_walk ga res 3
      (.apply (.cons partialConst (.cons
        (.apply (.cons partialConst (.cons f (.cons a .nil))))
        (.cons b .nil))))
      (.cons c .nil) false
      = some (f, .cons a (.cons b (.cons c .nil)), true) := by
    rw [show (3:Nat) = 2+1 from rfl, Partial_walk_succ]
    simp only [hga, hsp, if_true, NodeList.append]
    rw [show (2:Nat) = 1+1 from rfl, Partial_walk_succ]
    simp only [hga, hsp, if_true, NodeList.append]
    exact hstep 0 (.cons a (.cons b (.cons c .nil))) true
  have hmain : PartialInferrer_reroute ga res 3 (nestedPartialCall f a b c)
      = some (some (flatCall f a b c)) := by
    simp only [PartialInferrer_reroute, nestedPartialCall]
    rw [hw]
    rfl
  refine ⟨hmain, ?_, ?_⟩
  · intro args
    simp only [PartialInferrer_reroute]
    rw [show (1:Nat) = 0+1 from rfl, hstep 0 args false]
  · intro resolveNew runR rr hrr
    rw [hmain] at hrr
    have hrr' : rr = flatCall f a b c := by
      injection hrr with h1
      injection h1 with h2
      exact h2.symm
    refine ⟨?_, hrr'⟩
    have hd : ([some rr] : List (Option Node)).dedup = [some rr] := by simp
    simp [execute_inferrers, hd]

/-- Witness for C4: with the identity reroute map and a resolution that
maps only the `partial` constant to the single `partial` primitive,
`partial(partial(f, a), b)(c)` for parameter nodes f, a, b, c is rerouted
to the flattened call `f(a, b, c)`. -/
theorem C4_witness :
    PartialInferrer_reroute (fun n => n)
        (fun n => if n = partialConst
          then .function [.PrimitiveFunction .Partial]
          else .externalV .pynone)
        3 (nestedPartialCall (.param 0) (.param 1) (.param 2) (.param 3))
      = some (some (flatCall (.param 0) (.param 1) (.param 2) (.param 3))) :=
  (C4_partial_collapse (fun n => n)
      (fun n => if n = partialConst
        then .function [.PrimitiveFunction .Partial]
        else .externalV .pynone)
      (.param 0) (.param 1) (.param 2) (.param 3)
      (fun n => rfl) (by decide) (by decide)).1

/-- Counterexample for C1 as stated: with two inferrers of which one
proposes a reroute target and the other proposes none, the claim predicts
that the target's inferred result is propagated, but `execute_inferrers`
collects the set of reroute answers including the no-reroute answer,
sees two distinct elements, and fails with the assertion instead. -/
theorem C1_counterexample :
    execute_inferrers (fun _ => .ok (.atype .bool))
        [⟨none, .ok (.atype .bool)⟩, ⟨some (.param 0), .ok (.atype .bool)⟩]
      = .error .assertionFailure
  ∧ (Except.error Err.assertionFailure : Except Err AV)
      ≠ .ok (.atype .bool) := by
  constructor
  · rfl
  · decide

end Myia
